import Mathlib

/-!
Verification of the quantum-vs-classical algorithm demonstration repository.

The definitions below are shallow embeddings of the Python sources:
`src/quantum/grover.py`, `src/quantum/deutsch_jozsa.py`, `src/quantum/min_max.py`,
`src/backend/quantum/shor.py`, `src/backend/quantum/phase_estimation.py`,
`src/classical/min_max.py`, `src/classical/deutsch_jozsa.py`.

Machine floats of the source are modelled as exact rationals (for data values
and phases, all of which are exactly representable at the inputs considered)
or exact reals (for the `pi`/`sqrt` iteration-count formula).  The qiskit Aer
backend sampling is external randomness: results of a run that depend on the
measurement histogram are parameterized by that histogram (or by the
most-frequent measured outcome), and the deterministic post-processing of the
source is embedded verbatim around it.
-/

namespace Spec2Proof

/-! ### Grover (src/quantum/grover.py, `GroverAlgorithm.run`) -/

/-- Embeds line 42 of grover.py:
`int(math.floor(math.pi / 4 * math.sqrt(search_space_size / len(marked_items))))`,
with Python float arithmetic idealized as exact real arithmetic. -/
noncomputable def grover_iterations (space_size marked_count : ℕ) : ℤ :=
  ⌊Real.pi / 4 * Real.sqrt ((space_size : ℝ) / (marked_count : ℝ))⌋

/-- Outcomes of `GroverAlgorithm.run` up to the backend measurement:
the two returned error dictionaries, the uncaught `ZeroDivisionError`
raised at line 42 when `marked_items` is empty, the uncaught `IndexError`
raised inside `_oracle` when a marked item overflows the register (see
`oracle_raises`), and the normal path (whose measurement-dependent fields
are abstracted away; the deterministic `iterations` field is kept). -/
inductive GroverOutcome where
  | errNotPow2
  | errTooLarge
  | zeroDivisionError
  | indexError
  | ok (iterations : ℤ)

/-- Embeds the failure mode of `GroverAlgorithm._oracle` (grover.py lines
93-100): for each marked item `m` the loop over the reversed binary string
`format(m, f'0{n_qubits}b')` executes `qc.x(qr[i])` at every position `i`
whose bit is `'0'`; when `m ≥ 2^n_qubits` that string is longer than the
register (`Nat.size m` is the length of Python's `bin(m)` for `m ≥ 1`), so a
zero bit at a position `n_qubits ≤ i < Nat.size m` makes `qr[i]` raise an
uncaught `IndexError`.  This predicate holds exactly when some marked item
has such an out-of-register zero bit. -/
def oracle_raises (marked_items : List ℕ) (n_qubits : ℕ) : Bool :=
  marked_items.any fun m =>
    ((List.range (Nat.size m)).drop n_qubits).any fun i => !m.testBit i

/-- Embeds `GroverAlgorithm.run` (grover.py lines 33-64): the power-of-two
test `search_space_size == 0 or not (search_space_size & (search_space_size - 1) == 0)`,
the `n_qubits > 10` cap with `n_qubits = int(log2(N))`, the iteration count,
and the oracle construction inside the iteration loop, which raises
`IndexError` (instead of producing any result) when at least one Grover
iteration runs and some marked item has an out-of-register zero bit. -/
noncomputable def grover_run (marked_items : List ℕ) (search_space_size : ℕ) : GroverOutcome :=
  if search_space_size = 0 ∨ ¬(search_space_size &&& (search_space_size - 1) = 0) then
    .errNotPow2
  else if 10 < Nat.log2 search_space_size then .errTooLarge
  else if marked_items.length = 0 then .zeroDivisionError
  else if 1 ≤ grover_iterations search_space_size marked_items.length ∧
      oracle_raises marked_items (Nat.log2 search_space_size) then
    .indexError
  else .ok (grover_iterations search_space_size marked_items.length)

/-! ### Shor (src/backend/quantum/shor.py) -/

/-- Embeds `ShorAlgorithm._find_coprime`: the first `a` in `range(2, N)` with
`gcd(a, N) == 1`, else `2`. -/
def find_coprime (N : ℕ) : ℕ :=
  match ((List.range N).drop 2).find? (fun a => Nat.gcd a N = 1) with
  | some a => a
  | none => 2

/-- Embeds the `while current != 1` loop of `ShorAlgorithm._classical_period_finding`
(shor.py lines 106-113).  Arguments `r` and `current` are the loop variables; the
outer `none` means the fuel ran out (never happens from the real entry, with fuel
`N + 1`), `some none` is the `r > N` safety return, `some (some r)` the found period. -/
def periodLoop (a N : ℕ) : ℕ → ℕ → ℕ → Option (Option ℕ)
  | 0, _, _ => none
  | fuel + 1, r, current =>
    if current = 1 then some (some r)
    else if N < r + 1 then some none
    else periodLoop a N fuel (r + 1) (current * a % N)

/-- Embeds `ShorAlgorithm._classical_period_finding` (shor.py lines 98-115):
`None` when `gcd(a, N) != 1`, otherwise the loop starting at `r = 1`,
`current = a % N`. -/
def classical_period_finding (a N : ℕ) : Option ℕ :=
  if Nat.gcd a N ≠ 1 then none
  else (periodLoop a N (N + 1) 1 (a % N)).getD none

/-- Result dictionaries of `ShorAlgorithm.run`: a factor list together with the
`method` tag (`"trivial"`, `"gcd"` or `"quantum"`), or a `factors: None`
dictionary carrying the `period` and `error` fields, or the `N > 21` error. -/
inductive ShorOutcome where
  | factors (fs : List ℕ) (method : String)
  | noFactors (period : Option ℕ) (error_msg : String)
  | errTooLarge
deriving DecidableEq

/-- Embeds `ShorAlgorithm.run` (shor.py lines 47-89): even shortcut, `N > 21`
cap, base selection, gcd shortcut, (classically simulated) period finding, the
odd-period bailout and the `gcd(a^(r/2) ∓ 1, N)` post-processing. -/
def shor_run (N : ℕ) (a? : Option ℕ) : ShorOutcome :=
  if N % 2 = 0 then .factors [2, N / 2] "trivial"
  else if 21 < N then .errTooLarge
  else
    let a := match a? with
      | some a => a
      | none => find_coprime N
    if Nat.gcd a N ≠ 1 then .factors [Nat.gcd a N, N / Nat.gcd a N] "gcd"
    else
      match classical_period_finding a N with
      | none => .noFactors none "Period not suitable"
      | some r =>
        if r % 2 ≠ 0 then .noFactors (some r) "Period not suitable"
        else
          let factor1 := Nat.gcd (a ^ (r / 2) - 1) N
          let factor2 := Nat.gcd (a ^ (r / 2) + 1) N
          if factor1 ≠ 1 ∧ factor1 ≠ N then .factors [factor1, N / factor1] "quantum"
          else if factor2 ≠ 1 ∧ factor2 ≠ N then .factors [factor2, N / factor2] "quantum"
          else .noFactors (some r) "Factorization failed"

/-! ### Quantum phase estimation (src/backend/quantum/phase_estimation.py) -/

/-- The deterministic fields of the dictionary built by
`QuantumPhaseEstimation.run` (lines 89-100). -/
structure QPEOk where
  estimated_phase : ℚ
  error_val : ℚ
  precision : ℚ
  measured_int : ℕ
deriving DecidableEq

/-- Outcomes of `QuantumPhaseEstimation.run`: the two parameter errors or the
normal result. -/
inductive QPEResult where
  | errTooMany
  | errPhase
  | ok (r : QPEOk)
deriving DecidableEq

/-- Embeds `QuantumPhaseEstimation.run` (lines 34-100): the qubit cap, the
phase-range precondition, then the post-processing of the most frequent
measured integer, which is passed in as `measured_int` (it is produced by the
external qiskit backend sampling). -/
def qpe_run (phase : ℚ) (n_counting_qubits : ℕ) (measured_int : ℕ) : QPEResult :=
  if 10 < n_counting_qubits then .errTooMany
  else if phase < 0 ∨ 1 ≤ phase then .errPhase
  else
    let estimated := (measured_int : ℚ) / 2 ^ n_counting_qubits
    .ok ⟨estimated, |estimated - phase|, 1 / 2 ^ n_counting_qubits, measured_int⟩

/-- Modelled from the spec: the measurement step of the phase-estimation
circuit is executed by the external qiskit Aer backend, which is not part of
the repository sources.  Per the spec, the counting register encodes the phase
through controlled rotations followed by the inverse frequency transform, and
a dyadic phase is "exactly representable at this resolution", so the most
frequent measured integer for phase `φ` with `t` counting qubits is `φ·2^t`
(exact for dyadic phases, which is the only case used below). -/
def qpe_ideal_measured (phase : ℚ) (t : ℕ) : ℕ :=
  (phase * 2 ^ t).floor.toNat

/-! ### Deutsch-Jozsa, quantum (src/quantum/deutsch_jozsa.py) -/

/-- The deterministic fields of the dictionary built by
`DeutschJozsaAlgorithm.run` (lines 73-81). -/
structure DJOk where
  detected_type : String
  correct : Bool
  queries : ℕ
deriving DecidableEq

/-- Outcomes of `DeutschJozsaAlgorithm.run`: the qubit-cap error or the
normal result. -/
inductive DJResult where
  | errTooMany
  | ok (r : DJOk)
deriving DecidableEq

/-- Embeds the result analysis of `DeutschJozsaAlgorithm.run` (lines 64-69):
`if all_zeros in counts and counts[all_zeros] > 900: 'constant' else 'balanced'`.
The histogram maps measured bitstrings (as `List Bool`) to counts. -/
def dj_detect (counts : List (List Bool × ℕ)) (n_qubits : ℕ) : String :=
  match counts.lookup (List.replicate n_qubits false) with
  | some c => if 900 < c then "constant" else "balanced"
  | none => "balanced"

/-- Embeds `DeutschJozsaAlgorithm.run` (lines 33-81): the `n_qubits > 10` cap,
then the detection rule applied to the measurement histogram `counts` produced
by the external backend, `correct = detected_type == function_type`, and the
constant `queries = 1` field. -/
def dj_run (n_qubits : ℕ) (function_type : String) (counts : List (List Bool × ℕ)) :
    DJResult :=
  if 10 < n_qubits then .errTooMany
  else
    let d := dj_detect counts n_qubits
    .ok ⟨d, decide (d = function_type), 1⟩

/-! ### Deutsch-Jozsa, classical (src/classical/deutsch_jozsa.py) -/

/-- The dictionary returned by `classical_deutsch_jozsa`. -/
structure CDJResult where
  n_qubits : ℕ
  actual_type : String
  detected_type : String
  queries : ℕ
  correct : Bool
deriving DecidableEq

/-- Embeds the simulated query outputs of `classical_deutsch_jozsa`
(lines 13-20) before the shuffle: for `'constant'`, `[output] * queries_needed`
with the random `output` passed as `b`; otherwise
`[0] * (queries_needed // 2) + [1] * (queries_needed - queries_needed // 2)`. -/
def classical_dj_outputs (function_type : String) (queries : ℕ) (b : ℕ) : List ℕ :=
  if function_type = "constant" then List.replicate queries b
  else List.replicate (queries / 2) 0 ++ List.replicate (queries - queries / 2) 1

/-- Embeds `classical_deutsch_jozsa` (lines 4-34) with the randomly generated
(and, in the balanced case, shuffled) output list passed in as `outputs`:
`queries_needed = 2^n // 2 + 1`, detection by `len(set(outputs)) == 1`. -/
def classical_deutsch_jozsa (n_qubits : ℕ) (function_type : String) (outputs : List ℕ) :
    CDJResult :=
  let queries := 2 ^ n_qubits / 2 + 1
  let detected := if outputs.toFinset.card = 1 then "constant" else "balanced"
  ⟨n_qubits, function_type, detected, queries, decide (detected = function_type)⟩

/-! ### Classical min/max (src/classical/min_max.py) -/

/-- The result fields of `classical_min_max` that the loop computes. -/
structure CMMResult where
  value : ℚ
  index : ℕ
  comparisons : ℕ
deriving DecidableEq

/-- Comparison used by the scan loops: `data[i] < target` in the `find_min`
branch, `data[i] > target` in the other. -/
def dirLT (find_min : Bool) (x target : ℚ) : Prop :=
  if find_min then x < target else target < x

instance (fm : Bool) (x t : ℚ) : Decidable (dirLT fm x t) := by
  unfold dirLT; infer_instance

/-- The matching non-strict comparison (used only in statements/proofs). -/
def dirLE (find_min : Bool) (x target : ℚ) : Prop :=
  if find_min then x ≤ target else target ≤ x

/-- Embeds the `for i in range(1, len(data))` loop shared by the two branches
of `classical_min_max` (lines 13-26): walk the remaining elements, count one
comparison per element, and update `target`/`target_idx` on a strictly better
element. -/
def mmGo (find_min : Bool) : List ℚ → ℚ → ℕ → ℕ → ℕ → CMMResult
  | [], target, target_idx, comparisons, _i => ⟨target, target_idx, comparisons⟩
  | x :: xs, target, target_idx, comparisons, i =>
    if dirLT find_min x target then mmGo find_min xs x i (comparisons + 1) (i + 1)
    else mmGo find_min xs target target_idx (comparisons + 1) (i + 1)

/-- Embeds `classical_min_max` (src/classical/min_max.py): `None`-like error on
empty data, else the scan starting from `data[0]` at index `0`. -/
def classical_min_max (data : List ℚ) (find_min : Bool) : Option CMMResult :=
  match data with
  | [] => none
  | x :: xs => some (mmGo find_min xs x 0 0 1)

/-! ### Quantum min/max (src/quantum/min_max.py) -/

/-- Values occurring in the padded data list: original (rational) entries or
the `float('inf')` / `float('-inf')` sentinels. -/
inductive XVal where
  | fin (q : ℚ)
  | pinf
  | ninf
deriving DecidableEq

/-- Embeds the padding step of `QuantumMinMaxAlgorithm.run` (lines 36-43):
`power_of_2 = 2 ** ceil(log2(n))`, then
`data + [float('inf')] * (power_of_2 - n)` in min mode and
`data + [float('-inf')] * (power_of_2 - n)` in max mode. -/
def minmax_padded (data : List ℚ) (find_min : Bool) : List XVal :=
  let p2 := 2 ^ Nat.clog 2 data.length
  if find_min then data.map XVal.fin ++ List.replicate (p2 - data.length) XVal.pinf
  else data.map XVal.fin ++ List.replicate (p2 - data.length) XVal.ninf

/-- Python's built-in `min` on a list. -/
def listMin : List ℚ → ℚ
  | [] => 0
  | x :: xs => xs.foldl min x

/-- Python's built-in `max` on a list. -/
def listMax : List ℚ → ℚ
  | [] => 0
  | x :: xs => xs.foldl max x

/-- Embeds line 47 of min_max.py:
`[i for i, val in enumerate(data) if val == target_value]`. -/
def minmax_target_indices (data : List ℚ) (target : ℚ) : List ℕ :=
  (data.enum.filter (fun p => decide (p.2 = target))).map Prod.fst

/-- The fields of the dictionary built by `QuantumMinMaxAlgorithm.run`
(lines 98-109) that do not depend on the raw histogram. -/
structure MinMaxOk where
  target_value : ℚ
  target_indices : List ℕ
  iterations : ℤ
  found_index : ℕ
  found_value : Option ℚ
  success : Bool

/-- Outcomes of `QuantumMinMaxAlgorithm.run`: the two error dictionaries or
the normal result. -/
inductive MinMaxResult where
  | errEmpty
  | errTooLarge
  | ok (r : MinMaxOk)

/-- Embeds `QuantumMinMaxAlgorithm.run` (lines 32-109): empty-data error,
padding, the true target value by Python `min`/`max` over the original data,
the target index list, the `n_qubits > 10` cap with
`n_qubits = int(log2(power_of_2))`, the Grover iteration count, and the
interpretation of the most frequent measured index (passed in as
`measured_index`, since sampling happens in the external backend):
`found_value`/`success` from the bounds check at lines 86-91. -/
noncomputable def minmax_run (data : List ℚ) (find_min : Bool) (measured_index : ℕ) :
    MinMaxResult :=
  if data.length = 0 then .errEmpty
  else
    let p2 := 2 ^ Nat.clog 2 data.length
    let _padded := minmax_padded data find_min
    let tv := if find_min then listMin data else listMax data
    let tis := minmax_target_indices data tv
    if 10 < Nat.log2 p2 then .errTooLarge
    else
      let iters := grover_iterations p2 tis.length
      if measured_index < data.length then
        .ok ⟨tv, tis, iters, measured_index, some (data.getD measured_index 0),
          decide (data.getD measured_index 0 = tv)⟩
      else
        .ok ⟨tv, tis, iters, measured_index, none, false⟩

/-! ### Helper lemmas -/

lemma land_two_pow_sub_one (k : ℕ) : 2 ^ k &&& (2 ^ k - 1) = 0 := by
  apply Nat.eq_of_testBit_eq
  intro i
  rw [Nat.testBit_land, Nat.zero_testBit, Nat.testBit_two_pow, Nat.testBit_two_pow_sub_one]
  rcases eq_or_ne k i with rfl | h
  · simp
  · simp [h]

lemma pow_two_of_land_eq_zero {N : ℕ} (h0 : N ≠ 0) (h : N &&& (N - 1) = 0) :
    N = 2 ^ N.log2 := by
  have hle : 2 ^ N.log2 ≤ N := Nat.log2_self_le h0
  have hlt : N < 2 ^ (N.log2 + 1) := Nat.lt_log2_self
  have hsum : 2 ^ (N.log2 + 1) = 2 ^ N.log2 + 2 ^ N.log2 := by ring
  by_contra hne
  have hM1 : 1 ≤ N - 2 ^ N.log2 := by omega
  have hMlt : N - 2 ^ N.log2 < 2 ^ N.log2 := by omega
  have h1 : N.testBit N.log2 = true := by
    have hN : N = 2 ^ N.log2 + (N - 2 ^ N.log2) := by omega
    nth_rewrite 1 [hN]
    rw [Nat.testBit_two_pow_add_eq, Nat.testBit_lt_two_pow hMlt]
    rfl
  have h2 : (N - 1).testBit N.log2 = true := by
    have hN : N - 1 = 2 ^ N.log2 + (N - 2 ^ N.log2 - 1) := by omega
    nth_rewrite 1 [hN]
    rw [Nat.testBit_two_pow_add_eq,
      Nat.testBit_lt_two_pow (show N - 2 ^ N.log2 - 1 < 2 ^ N.log2 by omega)]
    rfl
  have hbit := congrArg (fun m => m.testBit N.log2) h
  simp [Nat.testBit_land, h1, h2] at hbit

lemma grover_run_pow2 (marked : List ℕ) (k : ℕ) (hk : k ≤ 10) :
    grover_run marked (2 ^ k) =
      if marked.length = 0 then GroverOutcome.zeroDivisionError
      else if 1 ≤ grover_iterations (2 ^ k) marked.length ∧ oracle_raises marked k then
        GroverOutcome.indexError
      else GroverOutcome.ok (grover_iterations (2 ^ k) marked.length) := by
  have h1 : ¬(2 ^ k = 0 ∨ ¬(2 ^ k &&& (2 ^ k - 1) = 0)) := by
    push_neg
    exact ⟨(Nat.pos_pow_of_pos k (by norm_num)).ne', land_two_pow_sub_one k⟩
  have h2 : ¬(10 < Nat.log2 (2 ^ k)) := by
    rw [Nat.log2_two_pow]
    omega
  unfold grover_run
  rw [if_neg h1, if_neg h2, Nat.log2_two_pow]

lemma oracle_raises_eq_false {marked : List ℕ} {k : ℕ} (h : ∀ m ∈ marked, m < 2 ^ k) :
    oracle_raises marked k = false := by
  unfold oracle_raises
  rw [List.any_eq_false]
  intro m hm
  have hsz : Nat.size m ≤ k := Nat.size_le.mpr (h m hm)
  rw [List.drop_eq_nil_of_le (by simpa using hsz)]
  simp

lemma size_sixteen : Nat.size 16 = 5 := by
  have h1 : Nat.size 16 ≤ 5 := Nat.size_le.mpr (by norm_num)
  have h2 : 4 < Nat.size 16 := Nat.lt_size.mpr (by norm_num)
  omega

lemma size_thirtytwo : Nat.size 32 = 6 := by
  have h1 : Nat.size 32 ≤ 6 := Nat.size_le.mpr (by norm_num)
  have h2 : 5 < Nat.size 32 := Nat.lt_size.mpr (by norm_num)
  omega

lemma oracle_raises_16 : oracle_raises [16] 4 = false := by
  simp only [oracle_raises, List.any_cons, List.any_nil, size_sixteen]
  decide

lemma oracle_raises_32 : oracle_raises [32] 4 = true := by
  simp only [oracle_raises, List.any_cons, List.any_nil, size_thirtytwo]
  decide

lemma grover_iterations_16_1 : grover_iterations 16 1 = 3 := by
  unfold grover_iterations
  have h1 : ((16 : ℕ) : ℝ) / ((1 : ℕ) : ℝ) = 16 := by norm_num
  rw [h1]
  have h2 : Real.sqrt 16 = 4 := by
    rw [show (16 : ℝ) = 4 ^ 2 by norm_num]
    exact Real.sqrt_sq (by norm_num)
  rw [h2, show Real.pi / 4 * 4 = Real.pi by ring]
  rw [Int.floor_eq_iff]
  constructor
  · push_cast
    linarith [Real.pi_gt_three]
  · push_cast
    linarith [Real.pi_lt_four]

lemma grover_run_16_single (m : ℕ) (hno : oracle_raises [m] 4 = false) :
    grover_run [m] 16 = GroverOutcome.ok 3 := by
  have h := grover_run_pow2 [m] 4 (by norm_num)
  rw [show (2 : ℕ) ^ 4 = 16 by norm_num] at h
  rw [h]
  simp only [List.length_cons, List.length_nil]
  rw [if_neg (by norm_num), if_neg (by simp [hno])]
  rw [grover_iterations_16_1]

lemma grover_run_pow2_inrange (marked : List ℕ) (k : ℕ) (hm : marked ≠ [])
    (hk : k ≤ 10) (hrange : ∀ m ∈ marked, m < 2 ^ k) :
    grover_run marked (2 ^ k) =
      GroverOutcome.ok (grover_iterations (2 ^ k) marked.length) := by
  rw [grover_run_pow2 marked k hk,
    if_neg (by simpa [List.length_eq_zero] using hm),
    if_neg (by simp [oracle_raises_eq_false hrange])]

lemma grover_run_32_16 : grover_run [32] 16 = GroverOutcome.indexError := by
  have h := grover_run_pow2 [32] 4 (by norm_num)
  rw [show (2 : ℕ) ^ 4 = 16 by norm_num] at h
  rw [h]
  simp only [List.length_cons, List.length_nil]
  rw [if_neg (by norm_num), if_pos ?_]
  constructor
  · rw [grover_iterations_16_1]
    norm_num
  · exact oracle_raises_32

/-! ### Claims C1 and C2 (Grover) -/

/-- Claim C1, counterexample: `marked_items = [32]` is non-empty and
`search_space_size = 16 = 2^4` is within the cap, yet
`GroverAlgorithm.run([32], 16)` reports no `'iterations'` field at all: with
3 Grover iterations to run, `_oracle` computes `format(32, '04b') = '100000'`
and its zero bit at position 4 executes `qc.x(qr[4])` on the 4-qubit
register, raising an uncaught `IndexError`. -/
theorem C1_counterexample : grover_run [32] 16 = GroverOutcome.indexError :=
  grover_run_32_16

/-- Claim C1 (amended): for every non-empty `marked_items` whose items all
lie in `[0, search_space_size)` and every power-of-two search space `2^k`
with `k ≤ 10`, `GroverAlgorithm.run` reports
`floor(pi/4 * sqrt(space_size / |marked_items|))` Grover iterations in the
`'iterations'` field; in particular, for `marked_items = [5]` and
`search_space_size = 16` the count is `3`.  (The in-range condition is what
the counterexample forces: an out-of-range item with a zero bit above the
register width, such as 32, makes the oracle construction raise `IndexError`
instead of returning a result.) -/
theorem C1_grover_iteration_count (marked : List ℕ) (k : ℕ)
    (hm : marked ≠ []) (hk : k ≤ 10) (hrange : ∀ m ∈ marked, m < 2 ^ k) :
    grover_run marked (2 ^ k) = GroverOutcome.ok (grover_iterations (2 ^ k) marked.length) ∧
      grover_run [5] 16 = GroverOutcome.ok 3 := by
  constructor
  · exact grover_run_pow2_inrange marked k hm hk hrange
  · exact grover_run_16_single 5
      (oracle_raises_eq_false (by intro m hm'; simp only [List.mem_singleton] at hm'; omega))

theorem C1_witness :
    ([5] : List ℕ) ≠ [] ∧ grover_run [5] 16 = GroverOutcome.ok 3 :=
  ⟨by decide, (C1_grover_iteration_count [5] 4 (by decide) (by decide) (by decide)).2⟩

/-- Claim C2, counterexample: the marked index 16 is outside `[0, 16)`, yet
`GroverAlgorithm.run([16], 16)` returns the normal result (iteration count 3)
instead of an `InvalidDimension` error — marked indices are never
range-checked (`format(16, '04b') = '10000'` has no out-of-register zero
bit, so the oracle builds without raising). -/
theorem C2_counterexample : grover_run [16] 16 = GroverOutcome.ok 3 :=
  grover_run_16_single 16 oracle_raises_16

/-- Claim C2 (amended): `GroverAlgorithm.run` returns its parameter-validation
error exactly when `search_space_size` is not a power of two; an empty
`marked_items` list instead raises an uncaught `ZeroDivisionError` at the
iteration-count line; and marked indices are never range-checked: a non-empty
in-range marked list proceeds to a normal result, and so does an out-of-range
item without an out-of-register zero bit (e.g. `run([16], 16)` returns
normally with 3 iterations), while an item like 32 in a 16-element space
raises an uncaught `IndexError` inside the oracle — in no case is an
`InvalidDimension` error returned for bad marked items. -/
theorem C2_amended_validation (marked : List ℕ) (N k : ℕ) (hk : k ≤ 10) :
    (grover_run marked N = GroverOutcome.errNotPow2 ↔ ¬∃ j, N = 2 ^ j) ∧
      (marked = [] → grover_run marked (2 ^ k) = GroverOutcome.zeroDivisionError) ∧
      (marked ≠ [] → (∀ m ∈ marked, m < 2 ^ k) →
        grover_run marked (2 ^ k) =
          GroverOutcome.ok (grover_iterations (2 ^ k) marked.length)) ∧
      grover_run [16] 16 = GroverOutcome.ok 3 ∧
      grover_run [32] 16 = GroverOutcome.indexError := by
  refine ⟨?_, ?_, ?_, grover_run_16_single 16 oracle_raises_16, grover_run_32_16⟩
  · have key : (N = 0 ∨ ¬(N &&& (N - 1) = 0)) ↔ ¬∃ j, N = 2 ^ j := by
      constructor
      · rintro (rfl | h) ⟨j, hj⟩
        · exact (Nat.pos_pow_of_pos j (by norm_num)).ne' hj.symm
        · exact h (hj ▸ land_two_pow_sub_one j)
      · intro h
        by_contra hc
        push_neg at hc
        exact h ⟨N.log2, pow_two_of_land_eq_zero hc.1 hc.2⟩
    rw [← key]
    unfold grover_run
    by_cases hc : N = 0 ∨ ¬(N &&& (N - 1) = 0)
    · rw [if_pos hc]
      simp [hc]
    · rw [if_neg hc]
      simp only [hc, iff_false]
      split_ifs <;> simp
  · intro h
    subst h
    rw [grover_run_pow2 [] k hk]
    simp
  · intro hm hrange
    exact grover_run_pow2_inrange marked k hm hk hrange

theorem C2_witness : grover_run [] (2 ^ 3) = GroverOutcome.zeroDivisionError :=
  (C2_amended_validation [] 8 3 (by norm_num)).2.1 rfl

/-! ### Claims C3 and C7 (Shor) -/

/-- Claim C3: the source does not retry unsuitable bases at all.  For
`N = 21` with base `a = 4` the discovered period is `r = 3`, which is odd;
`ShorAlgorithm.run` returns the `'Period not suitable'` failure dictionary
immediately, with no retry with a new base (and `shor_factor` in
`src/SL/classical/factorization.py` instead retries in an unbounded
`while True` loop with no maximum retry count). -/
theorem C3_first_unsuitable_base_aborts :
    shor_run 21 (some 4) = ShorOutcome.noFactors (some 3) "Period not suitable" := by
  decide

/-- Claim C7: for every even `N`, `ShorAlgorithm.run` returns the factor pair
`[2, N/2]` with method `'trivial'` (no period finding), and for every odd `N`
within the simulation limit and base `a` with `gcd(a, N) > 1` it immediately
returns `[gcd, N/gcd]` with method `'gcd'` (again no period finding). -/
theorem C7_trivial_and_gcd_shortcuts (N a : ℕ) :
    (N % 2 = 0 → shor_run N none = ShorOutcome.factors [2, N / 2] "trivial" ∧
      shor_run N (some a) = ShorOutcome.factors [2, N / 2] "trivial") ∧
    (N % 2 = 1 → N ≤ 21 → 1 < Nat.gcd a N →
      shor_run N (some a) = ShorOutcome.factors [Nat.gcd a N, N / Nat.gcd a N] "gcd") := by
  constructor
  · intro h
    constructor <;> (unfold shor_run; rw [if_pos h])
  · intro h1 h2 h3
    unfold shor_run
    rw [if_neg (by omega), if_neg (by omega)]
    show (if Nat.gcd a N ≠ 1 then
        ShorOutcome.factors [Nat.gcd a N, N / Nat.gcd a N] "gcd" else _) = _
    rw [if_pos (by omega)]

theorem C7_witness :
    shor_run 10 none = ShorOutcome.factors [2, 5] "trivial" ∧
      shor_run 21 (some 6) = ShorOutcome.factors [3, 7] "gcd" :=
  ⟨((C7_trivial_and_gcd_shortcuts 10 0).1 (by decide)).1,
    (C7_trivial_and_gcd_shortcuts 21 6).2 (by decide) (by decide) (by decide)⟩

/-! ### Claim C10 (classical period finding) -/

lemma periodLoop_ne_none (a N : ℕ) :
    ∀ fuel r current, r ≤ N + 1 → N + 2 ≤ fuel + r →
      periodLoop a N fuel r current ≠ none := by
  intro fuel
  induction fuel with
  | zero =>
    intro r current h1 h2
    omega
  | succ f ih =>
    intro r current h1 h2
    by_cases hcur : current = 1
    · simp [periodLoop, hcur]
    · by_cases hr : N < r + 1
      · simp [periodLoop, hcur, hr]
      · simp only [periodLoop]
        rw [if_neg hcur, if_neg hr]
        exact ih (r + 1) (current * a % N) (by omega) (by omega)

lemma periodLoop_finds (a N : ℕ) :
    ∀ fuel r m, 1 ≤ r → r ≤ m → m ≤ N → a ^ m % N = 1 →
      (∀ k, r ≤ k → k < m → a ^ k % N ≠ 1) → m - r < fuel →
      periodLoop a N fuel r (a ^ r % N) = some (some m) := by
  intro fuel
  induction fuel with
  | zero =>
    intro r m _ _ _ _ _ hfuel
    omega
  | succ f ih =>
    intro r m h1 hrm hmN hm hmin hfuel
    by_cases heq : r = m
    · subst heq
      simp [periodLoop, hm]
    · have hrm' : r < m := lt_of_le_of_ne hrm heq
      have hcur : a ^ r % N ≠ 1 := hmin r le_rfl hrm'
      simp only [periodLoop]
      rw [if_neg hcur, if_neg (show ¬(N < r + 1) by omega)]
      rw [show a ^ r % N * a % N = a ^ (r + 1) % N by rw [Nat.mod_mul_mod, ← pow_succ]]
      exact ih (r + 1) m (by omega) hrm' hmN hm
        (fun k hk1 hk2 => hmin k (by omega) hk2) (by omega)

lemma periodLoop_exhausts (a N : ℕ) :
    ∀ fuel r, 1 ≤ r → r ≤ N → (∀ k, r ≤ k → k ≤ N → a ^ k % N ≠ 1) →
      N - r < fuel → periodLoop a N fuel r (a ^ r % N) = some none := by
  intro fuel
  induction fuel with
  | zero =>
    intro r _ hrN _ hfuel
    omega
  | succ f ih =>
    intro r h1 hrN hmin hfuel
    have hcur : a ^ r % N ≠ 1 := hmin r le_rfl hrN
    by_cases hr : N < r + 1
    · simp [periodLoop, hcur, hr]
    · simp only [periodLoop]
      rw [if_neg hcur, if_neg hr]
      rw [show a ^ r % N * a % N = a ^ (r + 1) % N by rw [Nat.mod_mul_mod, ← pow_succ]]
      exact ih (r + 1) (by omega) (by omega)
        (fun k hk1 hk2 => hmin k (by omega) hk2) (by omega)

/-- Claim C10: for every base `a` and modulus `N ≥ 2`,
`ShorAlgorithm._classical_period_finding(a, N)` terminates within the `N + 1`
iteration budget; it returns `None` exactly when `gcd(a, N) ≠ 1` or no
`r ≤ N` satisfies `a^r ≡ 1 (mod N)` (the `r > N` safety check), and otherwise
returns the smallest `r ≥ 1` with `a^r ≡ 1 (mod N)`. -/
theorem C10_period_finding_characterization (a N : ℕ) (hN : 2 ≤ N) :
    periodLoop a N (N + 1) 1 (a % N) ≠ none ∧
      (classical_period_finding a N = none ↔
        Nat.gcd a N ≠ 1 ∨ ∀ r, 1 ≤ r → r ≤ N → a ^ r % N ≠ 1) ∧
      (∀ r, classical_period_finding a N = some r ↔
        Nat.gcd a N = 1 ∧ 1 ≤ r ∧ r ≤ N ∧ a ^ r % N = 1 ∧
          ∀ k, k < r → 1 ≤ k → a ^ k % N ≠ 1) := by
  have hterm := periodLoop_ne_none a N (N + 1) 1 (a % N) (by omega) (by omega)
  have hpow1 : a % N = a ^ 1 % N := by rw [pow_one]
  refine ⟨hterm, ?_⟩
  by_cases hg : Nat.gcd a N = 1
  · by_cases hex : ∃ m, 1 ≤ m ∧ m ≤ N ∧ a ^ m % N = 1
    · have hspec := Nat.find_spec hex
      have hmin : ∀ k, 1 ≤ k → k < Nat.find hex → a ^ k % N ≠ 1 := by
        intro k hk1 hk2 hk3
        exact Nat.find_min hex hk2 ⟨hk1, by omega, hk3⟩
      have hloop : periodLoop a N (N + 1) 1 (a % N) = some (some (Nat.find hex)) := by
        rw [hpow1]
        exact periodLoop_finds a N (N + 1) 1 (Nat.find hex) le_rfl hspec.1 hspec.2.1
          hspec.2.2 (fun k hk1 hk2 => hmin k hk1 hk2) (by omega)
      have hres : classical_period_finding a N = some (Nat.find hex) := by
        unfold classical_period_finding
        rw [if_neg (not_not_intro hg), hloop]
        rfl
      constructor
      · rw [hres]
        constructor
        · intro h
          cases h
        · rintro (h | h)
          · exact absurd hg h
          · exact absurd hspec.2.2 (h _ hspec.1 hspec.2.1)
      · intro r
        rw [hres]
        constructor
        · intro h
          have hr : Nat.find hex = r := Option.some_inj.mp h
          subst hr
          exact ⟨hg, hspec.1, hspec.2.1, hspec.2.2, fun k hk1 hk2 => hmin k hk2 hk1⟩
        · rintro ⟨-, h1, h2, h3, hminr⟩
          have hle1 : Nat.find hex ≤ r := Nat.find_min' hex ⟨h1, h2, h3⟩
          have hle2 : ¬(Nat.find hex < r) := fun hlt =>
            hminr _ hlt hspec.1 hspec.2.2
          rw [show Nat.find hex = r by omega]
    · have hloop : periodLoop a N (N + 1) 1 (a % N) = some none := by
        rw [hpow1]
        push_neg at hex
        exact periodLoop_exhausts a N (N + 1) 1 le_rfl (by omega)
          (fun k hk1 hk2 => hex k hk1 hk2) (by omega)
      have hres : classical_period_finding a N = none := by
        unfold classical_period_finding
        rw [if_neg (not_not_intro hg), hloop]
        rfl
      push_neg at hex
      constructor
      · rw [hres]
        simp only [true_iff]
        exact Or.inr fun r h1 h2 => hex r h1 h2
      · intro r
        rw [hres]
        constructor
        · intro h
          cases h
        · rintro ⟨-, h1, h2, h3, -⟩
          exact absurd h3 (hex r h1 h2)
  · have hres : classical_period_finding a N = none := by
      unfold classical_period_finding
      rw [if_pos hg]
    constructor
    · rw [hres]
      simp only [true_iff]
      exact Or.inl hg
    · intro r
      rw [hres]
      constructor
      · intro h
        cases h
      · rintro ⟨h, -⟩
        exact absurd h hg

theorem C10_witness : classical_period_finding 2 7 = some 3 :=
  ((C10_period_finding_characterization 2 7 (by decide)).2.2 3).mpr (by decide)

/-! ### Claim C4 (Deutsch-Jozsa detection threshold) -/

/-- Claim C4, counterexample: a histogram over 1024 shots in which the
all-zero outcome occurs 901 times.  The code declares `'constant'`
(`901 > 900`), yet the all-zero share `901/1024` does not exceed `0.88`
(`901/1024 < 88/100`), so the claimed threshold rule does not match the
code. -/
theorem C4_counterexample :
    dj_run 3 "constant" [(List.replicate 3 false, 901), ([true, false, false], 123)] =
      DJResult.ok ⟨"constant", true, 1⟩ ∧
      ¬((88 : ℚ) / 100 < 901 / 1024) := by
  constructor
  · decide
  · norm_num

/-- Claim C4 (amended): for every `n_qubits ≤ 10`,
`DeutschJozsaAlgorithm.run` declares `detected_type = 'constant'` exactly when
the measurement histogram contains the all-zero outcome with a count strictly
greater than 900 of the 1024 shots (a share above `900/1024 ≈ 0.879`, not
`0.88`), and declares `'balanced'` otherwise. -/
theorem C4_amended_threshold (n_qubits : ℕ) (function_type : String)
    (counts : List (List Bool × ℕ)) (hn : n_qubits ≤ 10) :
    dj_run n_qubits function_type counts ≠ DJResult.errTooMany ∧
      ∀ r, dj_run n_qubits function_type counts = DJResult.ok r →
        (r.detected_type = "constant" ↔
          ∃ c, counts.lookup (List.replicate n_qubits false) = some c ∧ 900 < c) := by
  have hrun : dj_run n_qubits function_type counts =
      DJResult.ok ⟨dj_detect counts n_qubits,
        decide (dj_detect counts n_qubits = function_type), 1⟩ := by
    unfold dj_run
    rw [if_neg (by omega)]
  refine ⟨by rw [hrun]; simp, ?_⟩
  intro r hr
  rw [hrun] at hr
  have hr' := (DJResult.ok.injEq _ _).mp hr
  subst hr'
  show dj_detect counts n_qubits = "constant" ↔ _
  unfold dj_detect
  rcases hlook : counts.lookup (List.replicate n_qubits false) with _ | c
  · simp only [hlook]
    constructor
    · intro h
      exact absurd h (by decide)
    · rintro ⟨c, hc, -⟩
      cases hc
  · simp only [hlook]
    by_cases hc : 900 < c
    · rw [if_pos hc]
      exact ⟨fun _ => ⟨c, rfl, hc⟩, fun _ => rfl⟩
    · rw [if_neg hc]
      constructor
      · intro h
        exact absurd h (by decide)
      · rintro ⟨c', hc', hgt⟩
        rw [Option.some_inj.mp hc'] at hc
        exact absurd hgt hc

theorem C4_witness :
    dj_run 3 "balanced" [(List.replicate 3 false, 1024)] ≠ DJResult.errTooMany :=
  (C4_amended_threshold 3 "balanced" [(List.replicate 3 false, 1024)] (by decide)).1

/-! ### Claim C5 (quantum phase estimation post-processing) -/

/-- Claim C5: `QuantumPhaseEstimation.run(phase, t)` returns
`estimated_phase = (most frequent measured integer) / 2^t`,
`error = |estimated_phase - phase|` and `precision = 1/2^t`; in particular,
with the backend measurement modelled from the spec (exact for the dyadic
phase `0.25` at `t = 4` counting qubits), it returns
`estimated_phase = 0.25` and `error = 0`. -/
theorem C5_qpe_postprocessing (phase : ℚ) (t m : ℕ)
    (h0 : 0 ≤ phase) (h1 : phase < 1) (ht : t ≤ 10) :
    qpe_run phase t m =
      QPEResult.ok ⟨(m : ℚ) / 2 ^ t, |(m : ℚ) / 2 ^ t - phase|, 1 / 2 ^ t, m⟩ ∧
      qpe_run (1 / 4) 4 (qpe_ideal_measured (1 / 4) 4) =
        QPEResult.ok ⟨1 / 4, 0, 1 / 16, 4⟩ := by
  constructor
  · unfold qpe_run
    rw [if_neg (by omega), if_neg (by push_neg; exact ⟨h0, h1⟩)]
  · have hm : qpe_ideal_measured (1 / 4) 4 = 4 := by
      norm_num [qpe_ideal_measured]
      decide
    rw [hm]
    unfold qpe_run
    rw [if_neg (by norm_num), if_neg (by norm_num)]
    simp only [QPEResult.ok.injEq, QPEOk.mk.injEq]
    norm_num

theorem C5_witness :
    qpe_run (1 / 4) 4 (qpe_ideal_measured (1 / 4) 4) =
      QPEResult.ok ⟨1 / 4, 0, 1 / 16, 4⟩ :=
  (C5_qpe_postprocessing (1 / 4) 4 0 (by norm_num) (by norm_num) (by norm_num)).2

/-! ### Claim C9 (classical Deutsch-Jozsa always correct) -/

/-- Claim C9: for every `n_qubits ≥ 1` and `function_type` in
`{'constant', 'balanced'}`, `classical_deutsch_jozsa` returns
`correct = true`, independently of the random output bit `b` chosen in the
constant case and of the random shuffle (any permutation) in the balanced
case: the constant outputs are all identical, and the `2^(n-1) + 1 ≥ 2`
balanced outputs always contain both a `0` and a `1`. -/
theorem C9_classical_dj_correct (n_qubits : ℕ) (function_type : String)
    (outputs : List ℕ) (b : ℕ) (hn : 1 ≤ n_qubits)
    (hft : function_type = "constant" ∨ function_type = "balanced")
    (hb : b = 0 ∨ b = 1)
    (hout : outputs.Perm
      (classical_dj_outputs function_type (2 ^ n_qubits / 2 + 1) b)) :
    (classical_deutsch_jozsa n_qubits function_type outputs).correct = true := by
  have h2 : 2 ≤ 2 ^ n_qubits := by
    calc 2 = 2 ^ 1 := rfl
    _ ≤ 2 ^ n_qubits := Nat.pow_le_pow_right (by norm_num) hn
  have hq1 : 1 ≤ 2 ^ n_qubits / 2 := (Nat.one_le_div_iff (by norm_num)).mpr h2
  rcases hft with hft | hft
  · subst hft
    have hfin : outputs.toFinset = {b} := by
      rw [List.toFinset_eq_of_perm _ _ hout]
      unfold classical_dj_outputs
      rw [if_pos rfl]
      exact List.toFinset_replicate_of_ne_zero (by omega)
    simp [classical_deutsch_jozsa, hfin]
  · subst hft
    have h0 : (0 : ℕ) ∈ outputs := by
      rw [hout.mem_iff]
      unfold classical_dj_outputs
      rw [if_neg (by decide)]
      exact List.mem_append_left _ (List.mem_replicate.mpr ⟨by omega, rfl⟩)
    have h1 : (1 : ℕ) ∈ outputs := by
      rw [hout.mem_iff]
      unfold classical_dj_outputs
      rw [if_neg (by decide)]
      refine List.mem_append_right _ (List.mem_replicate.mpr ⟨by omega, rfl⟩)
    have hcard : outputs.toFinset.card ≠ 1 := by
      intro hcard
      have := Finset.card_le_one.mp (le_of_eq hcard) 0
        (List.mem_toFinset.mpr h0) 1 (List.mem_toFinset.mpr h1)
      omega
    simp [classical_deutsch_jozsa, hcard]

theorem C9_witness :
    (classical_deutsch_jozsa 3 "balanced"
      (classical_dj_outputs "balanced" (2 ^ 3 / 2 + 1) 0)).correct = true :=
  C9_classical_dj_correct 3 "balanced" _ 0 (by norm_num) (Or.inr rfl) (Or.inl rfl)
    (List.Perm.refl _)

/-! ### Claim C8 (classical linear extremum scan) -/

lemma dirLE_refl (fm : Bool) (x : ℚ) : dirLE fm x x := by
  cases fm <;> simp [dirLE]

lemma dirLE_of_dirLT {fm : Bool} {a b : ℚ} (h : dirLT fm a b) : dirLE fm a b := by
  cases fm <;> simp [dirLT, dirLE] at h ⊢ <;> exact h.le

lemma dirLE_trans {fm : Bool} {a b c : ℚ} (h1 : dirLE fm a b) (h2 : dirLE fm b c) :
    dirLE fm a c := by
  cases fm <;> simp [dirLE] at h1 h2 ⊢ <;> linarith

lemma dirLT_trans {fm : Bool} {a b c : ℚ} (h1 : dirLT fm a b) (h2 : dirLT fm b c) :
    dirLT fm a c := by
  cases fm <;> simp [dirLT] at h1 h2 ⊢ <;> linarith

lemma dirLT_of_dirLT_of_dirLE {fm : Bool} {a b c : ℚ} (h1 : dirLT fm a b)
    (h2 : dirLE fm b c) : dirLT fm a c := by
  cases fm <;> simp [dirLT, dirLE] at h1 h2 ⊢ <;> linarith

lemma dirLE_of_not_dirLT {fm : Bool} {a b : ℚ} (h : ¬dirLT fm a b) : dirLE fm b a := by
  cases fm <;> simp [dirLT, dirLE] at h ⊢ <;> linarith

lemma ne_of_dirLT {fm : Bool} {a b : ℚ} (h : dirLT fm a b) : b ≠ a := by
  cases fm <;> simp [dirLT] at h
  · exact ne_of_lt h
  · exact ne_of_gt h

lemma mmGo_spec (fm : Bool) (xs : List ℚ) :
    ∀ (best : ℚ) (b0 c0 i : ℕ),
      ∃ v idx c, mmGo fm xs best b0 c0 i = ⟨v, idx, c⟩ ∧ c = c0 + xs.length ∧
        dirLE fm v best ∧ (∀ x ∈ xs, dirLE fm v x) ∧
        ((v = best ∧ idx = b0 ∧ ∀ x ∈ xs, dirLE fm best x) ∨
          ∃ j, j < xs.length ∧ xs.getD j 0 = v ∧ idx = i + j ∧
            (∀ k, k < j → dirLT fm v (xs.getD k 0)) ∧ dirLT fm v best) := by
  induction xs with
  | nil =>
    intro best b0 c0 i
    exact ⟨best, b0, c0, rfl, by simp, dirLE_refl fm best, by simp,
      Or.inl ⟨rfl, rfl, by simp⟩⟩
  | cons x xs ih =>
    intro best b0 c0 i
    by_cases hlt : dirLT fm x best
    · obtain ⟨v, idx, c, heq, hc, hvle, hall, hdisj⟩ := ih x i (c0 + 1) (i + 1)
      refine ⟨v, idx, c, ?_, ?_, ?_, ?_, ?_⟩
      · simp only [mmGo, if_pos hlt]
        exact heq
      · simp only [List.length_cons]
        omega
      · exact dirLE_trans hvle (dirLE_of_dirLT hlt)
      · intro y hy
        rcases List.mem_cons.mp hy with rfl | hy
        · exact hvle
        · exact hall y hy
      · rcases hdisj with ⟨hv, hidx, -⟩ | ⟨j, hj, hget, hidx, hks, hvb⟩
        · refine Or.inr ⟨0, by simp, ?_, by omega, ?_, ?_⟩
          · rw [List.getD_cons_zero]
            exact hv.symm
          · intro k hk
            omega
          · rw [hv]
            exact hlt
        · refine Or.inr ⟨j + 1, by simp only [List.length_cons]; omega, ?_, by omega,
            ?_, dirLT_trans hvb hlt⟩
          · rw [List.getD_cons_succ]
            exact hget
          · intro k hk
            cases k with
            | zero =>
              rw [List.getD_cons_zero]
              exact hvb
            | succ k' =>
              rw [List.getD_cons_succ]
              exact hks k' (by omega)
    · obtain ⟨v, idx, c, heq, hc, hvle, hall, hdisj⟩ := ih best b0 (c0 + 1) (i + 1)
      have hle : dirLE fm best x := dirLE_of_not_dirLT hlt
      refine ⟨v, idx, c, ?_, ?_, hvle, ?_, ?_⟩
      · simp only [mmGo, if_neg hlt]
        exact heq
      · simp only [List.length_cons]
        omega
      · intro y hy
        rcases List.mem_cons.mp hy with rfl | hy
        · exact dirLE_trans hvle hle
        · exact hall y hy
      · rcases hdisj with ⟨hv, hidx, hball⟩ | ⟨j, hj, hget, hidx, hks, hvb⟩
        · refine Or.inl ⟨hv, hidx, ?_⟩
          intro y hy
          rcases List.mem_cons.mp hy with rfl | hy
          · exact hle
          · exact hball y hy
        · refine Or.inr ⟨j + 1, by simp only [List.length_cons]; omega, ?_, by omega,
            ?_, hvb⟩
          · rw [List.getD_cons_succ]
            exact hget
          · intro k hk
            cases k with
            | zero =>
              rw [List.getD_cons_zero]
              exact dirLT_of_dirLT_of_dirLE hvb hle
            | succ k' =>
              rw [List.getD_cons_succ]
              exact hks k' (by omega)

/-- Claim C8: for every non-empty `data` list, `classical_min_max` performs
exactly `len(data) - 1` comparisons and returns the value of the extremum
(minimum in `find_min` mode, maximum otherwise) together with its first
index. -/
theorem C8_classical_min_max_scan (data : List ℚ) (find_min : Bool) (h : data ≠ []) :
    (classical_min_max data find_min).isSome = true ∧
      ∀ res, classical_min_max data find_min = some res →
        res.comparisons = data.length - 1 ∧
        res.index < data.length ∧
        data.getD res.index 0 = res.value ∧
        (find_min = true → ∀ x ∈ data, res.value ≤ x) ∧
        (find_min = false → ∀ x ∈ data, x ≤ res.value) ∧
        ∀ j, j < res.index → data.getD j 0 ≠ res.value := by
  obtain ⟨x, xs, rfl⟩ := List.exists_cons_of_ne_nil h
  obtain ⟨v, idx, c, heq, hc, hvle, hall, hdisj⟩ := mmGo_spec find_min xs x 0 0 1
  have hrun : classical_min_max (x :: xs) find_min = some ⟨v, idx, c⟩ := by
    show some (mmGo find_min xs x 0 0 1) = _
    rw [heq]
  refine ⟨by rw [hrun]; rfl, ?_⟩
  intro res hres
  rw [hrun] at hres
  have hres' := Option.some_inj.mp hres
  subst hres'
  have hmem : ∀ y ∈ x :: xs, dirLE find_min v y := by
    intro y hy
    rcases List.mem_cons.mp hy with rfl | hy
    · exact hvle
    · exact hall y hy
  rcases hdisj with ⟨hv, hidx, -⟩ | ⟨j, hj, hget, hidx, hks, hvb⟩
  · refine ⟨?_, ?_, ?_, ?_, ?_, ?_⟩
    · show c = (x :: xs).length - 1
      simp only [List.length_cons]
      omega
    · show idx < (x :: xs).length
      rw [hidx]
      simp
    · show (x :: xs).getD idx 0 = v
      rw [hidx, List.getD_cons_zero, hv]
    · intro hfm y hy
      have hd := hmem y hy
      rw [hfm] at hd
      simpa [dirLE] using hd
    · intro hfm y hy
      have hd := hmem y hy
      rw [hfm] at hd
      simpa [dirLE] using hd
    · intro k hk
      have hk' : k < idx := hk
      rw [hidx] at hk'
      exact absurd hk' (Nat.not_lt_zero k)
  · refine ⟨?_, ?_, ?_, ?_, ?_, ?_⟩
    · show c = (x :: xs).length - 1
      simp only [List.length_cons]
      omega
    · show idx < (x :: xs).length
      rw [hidx]
      simp only [List.length_cons]
      omega
    · show (x :: xs).getD idx 0 = v
      rw [hidx, show 1 + j = j + 1 by omega, List.getD_cons_succ]
      exact hget
    · intro hfm y hy
      have hd := hmem y hy
      rw [hfm] at hd
      simpa [dirLE] using hd
    · intro hfm y hy
      have hd := hmem y hy
      rw [hfm] at hd
      simpa [dirLE] using hd
    · intro k hk
      have hk' : k < idx := hk
      rw [hidx] at hk'
      show (x :: xs).getD k 0 ≠ v
      cases k with
      | zero =>
        rw [List.getD_cons_zero]
        exact ne_of_dirLT hvb
      | succ k' =>
        rw [List.getD_cons_succ]
        exact ne_of_dirLT (hks k' (by omega))

theorem C8_witness : (classical_min_max [3, 1, 2] true).isSome = true :=
  (C8_classical_min_max_scan [3, 1, 2] true (List.cons_ne_nil 3 [1, 2])).1

/-! ### Claim C6 (quantum extremum search, deterministic fields) -/

lemma foldl_min_le_init (xs : List ℚ) : ∀ b : ℚ, xs.foldl min b ≤ b := by
  induction xs with
  | nil =>
    intro b
    exact le_rfl
  | cons x xs ih =>
    intro b
    exact le_trans (ih (min b x)) (min_le_left b x)

lemma foldl_min_le_mem (xs : List ℚ) : ∀ b y : ℚ, y ∈ xs → xs.foldl min b ≤ y := by
  induction xs with
  | nil =>
    intro b y hy
    cases hy
  | cons x xs ih =>
    intro b y hy
    rcases List.mem_cons.mp hy with rfl | hy
    · exact le_trans (foldl_min_le_init xs (min b y)) (min_le_right b y)
    · exact ih (min b x) y hy

lemma foldl_min_mem (xs : List ℚ) : ∀ b : ℚ, xs.foldl min b = b ∨ xs.foldl min b ∈ xs := by
  induction xs with
  | nil =>
    intro b
    exact Or.inl rfl
  | cons x xs ih =>
    intro b
    rcases ih (min b x) with h | h
    · rcases min_choice b x with hm | hm
      · exact Or.inl (h.trans hm)
      · refine Or.inr ?_
        rw [show (x :: xs).foldl min b = x from h.trans hm]
        exact List.mem_cons_self x xs
    · exact Or.inr (List.mem_cons_of_mem x h)

lemma foldl_max_init_le (xs : List ℚ) : ∀ b : ℚ, b ≤ xs.foldl max b := by
  induction xs with
  | nil =>
    intro b
    exact le_rfl
  | cons x xs ih =>
    intro b
    exact le_trans (le_max_left b x) (ih (max b x))

lemma foldl_max_mem_le (xs : List ℚ) : ∀ b y : ℚ, y ∈ xs → y ≤ xs.foldl max b := by
  induction xs with
  | nil =>
    intro b y hy
    cases hy
  | cons x xs ih =>
    intro b y hy
    rcases List.mem_cons.mp hy with rfl | hy
    · exact le_trans (le_max_right b y) (foldl_max_init_le xs (max b y))
    · exact ih (max b x) y hy

lemma foldl_max_mem (xs : List ℚ) : ∀ b : ℚ, xs.foldl max b = b ∨ xs.foldl max b ∈ xs := by
  induction xs with
  | nil =>
    intro b
    exact Or.inl rfl
  | cons x xs ih =>
    intro b
    rcases ih (max b x) with h | h
    · rcases max_choice b x with hm | hm
      · exact Or.inl (h.trans hm)
      · refine Or.inr ?_
        rw [show (x :: xs).foldl max b = x from h.trans hm]
        exact List.mem_cons_self x xs
    · exact Or.inr (List.mem_cons_of_mem x h)

lemma listMin_spec (data : List ℚ) (h : data ≠ []) :
    listMin data ∈ data ∧ ∀ y ∈ data, listMin data ≤ y := by
  obtain ⟨x, xs, rfl⟩ := List.exists_cons_of_ne_nil h
  constructor
  · show xs.foldl min x ∈ x :: xs
    rcases foldl_min_mem xs x with hm | hm
    · rw [hm]
      exact List.mem_cons_self x xs
    · exact List.mem_cons_of_mem x hm
  · intro y hy
    show xs.foldl min x ≤ y
    rcases List.mem_cons.mp hy with rfl | hy
    · exact foldl_min_le_init xs _
    · exact foldl_min_le_mem xs x y hy

lemma listMax_spec (data : List ℚ) (h : data ≠ []) :
    listMax data ∈ data ∧ ∀ y ∈ data, y ≤ listMax data := by
  obtain ⟨x, xs, rfl⟩ := List.exists_cons_of_ne_nil h
  constructor
  · show xs.foldl max x ∈ x :: xs
    rcases foldl_max_mem xs x with hm | hm
    · rw [hm]
      exact List.mem_cons_self x xs
    · exact List.mem_cons_of_mem x hm
  · intro y hy
    show y ≤ xs.foldl max x
    rcases List.mem_cons.mp hy with rfl | hy
    · exact foldl_max_init_le xs _
    · exact foldl_max_mem_le xs x y hy

lemma mem_minmax_target_indices (data : List ℚ) (t : ℚ) (i : ℕ) :
    i ∈ minmax_target_indices data t ↔ i < data.length ∧ data.getD i 0 = t := by
  unfold minmax_target_indices
  simp only [List.mem_map, List.mem_filter]
  constructor
  · rintro ⟨⟨i', x⟩, ⟨hmem, hx⟩, rfl⟩
    have hx' : x = t := of_decide_eq_true hx
    have hget : data[i']? = some x := List.mk_mem_enum_iff_getElem?.mp hmem
    have hlt : i' < data.length := by
      by_contra hge
      rw [List.getElem?_eq_none (by omega)] at hget
      cases hget
    refine ⟨hlt, ?_⟩
    rw [List.getD_eq_getElem?_getD, hget]
    exact hx'
  · rintro ⟨hlt, hget⟩
    have hgd : data.getD i 0 = data[i] := by
      rw [List.getD_eq_getElem?_getD, List.getElem?_eq_getElem hlt]
      rfl
    refine ⟨(i, data.getD i 0), ⟨?_, ?_⟩, rfl⟩
    · rw [List.mk_mem_enum_iff_getElem?, hgd, List.getElem?_eq_getElem hlt]
    · exact decide_eq_true hget

lemma minmax_run_ok_props (data : List ℚ) (find_min : Bool) (measured : ℕ)
    (hne : data ≠ []) (hsz : Nat.clog 2 data.length ≤ 10) :
    ∀ r, minmax_run data find_min measured = MinMaxResult.ok r →
      r.target_value ∈ data ∧
      (find_min = true → ∀ x ∈ data, r.target_value ≤ x) ∧
      (find_min = false → ∀ x ∈ data, x ≤ r.target_value) ∧
      (∀ i, i ∈ r.target_indices ↔ i < data.length ∧ data.getD i 0 = r.target_value) ∧
      r.found_index = measured ∧
      (r.success = true ↔
        measured < data.length ∧ data.getD measured 0 = r.target_value) := by
  have hlen : ¬(data.length = 0) := by simpa [List.length_eq_zero] using hne
  have hcap : ¬(10 < Nat.log2 (2 ^ Nat.clog 2 data.length)) := by
    rw [Nat.log2_two_pow]
    omega
  have htv_mem : (if find_min then listMin data else listMax data) ∈ data := by
    cases find_min
    · exact (listMax_spec data hne).1
    · exact (listMin_spec data hne).1
  have htv_min : find_min = true →
      ∀ x ∈ data, (if find_min then listMin data else listMax data) ≤ x := by
    intro hfm
    subst hfm
    exact (listMin_spec data hne).2
  have htv_max : find_min = false →
      ∀ x ∈ data, x ≤ (if find_min then listMin data else listMax data) := by
    intro hfm
    subst hfm
    exact (listMax_spec data hne).2
  intro r hr
  simp only [minmax_run] at hr
  rw [if_neg hlen, if_neg hcap] at hr
  by_cases hm : measured < data.length
  · rw [if_pos hm] at hr
    have hr' := (MinMaxResult.ok.injEq _ _).mp hr
    subst hr'
    refine ⟨htv_mem, htv_min, htv_max,
      fun i => mem_minmax_target_indices data _ i, rfl, ?_⟩
    show decide (data.getD measured 0 = _) = true ↔ _
    rw [decide_eq_true_iff]
    exact ⟨fun hgd => ⟨hm, hgd⟩, fun hgd => hgd.2⟩
  · rw [if_neg hm] at hr
    have hr' := (MinMaxResult.ok.injEq _ _).mp hr
    subst hr'
    refine ⟨htv_mem, htv_min, htv_max,
      fun i => mem_minmax_target_indices data _ i, rfl, ?_⟩
    constructor
    · intro hfalse
      cases hfalse
    · rintro ⟨h1, -⟩
      exact absurd h1 hm

lemma clog_two_eight_le_ten : Nat.clog 2 ([7, 3, 9, 1, 5, 8, 2, 6] : List ℚ).length ≤ 10 :=
  (Nat.le_pow_iff_clog_le (by norm_num)).mp (by norm_num)

/-- Claim C6: for every non-empty `data` whose padded length is at most
`2^10`, `QuantumMinMaxAlgorithm.run` pads `data` to the next power-of-two
length with the appropriate infinity sentinel, sets `target_value` to the true
extremum of the original data, sets `target_indices` to exactly the indices
achieving it, and sets `success = true` iff the reported `found_index` is a
valid index with `data[found_index] == target_value`; for
`data = [7,3,9,1,5,8,2,6]` in min mode, `target_value` is `1` attained exactly
at index `3`. -/
theorem C6_minmax_extremum (data : List ℚ) (find_min : Bool) (measured : ℕ)
    (hne : data ≠ []) (hsz : Nat.clog 2 data.length ≤ 10) :
    minmax_run data find_min measured ≠ MinMaxResult.errEmpty ∧
      minmax_run data find_min measured ≠ MinMaxResult.errTooLarge ∧
      minmax_padded data find_min =
        data.map XVal.fin ++ List.replicate (2 ^ Nat.clog 2 data.length - data.length)
          (if find_min then XVal.pinf else XVal.ninf) ∧
      data.length ≤ 2 ^ Nat.clog 2 data.length ∧
      (∀ j, data.length ≤ 2 ^ j → Nat.clog 2 data.length ≤ j) ∧
      (∀ r, minmax_run data find_min measured = MinMaxResult.ok r →
        r.target_value ∈ data ∧
        (find_min = true → ∀ x ∈ data, r.target_value ≤ x) ∧
        (find_min = false → ∀ x ∈ data, x ≤ r.target_value) ∧
        (∀ i, i ∈ r.target_indices ↔ i < data.length ∧ data.getD i 0 = r.target_value) ∧
        r.found_index = measured ∧
        (r.success = true ↔
          measured < data.length ∧ data.getD measured 0 = r.target_value)) ∧
      ∀ r, minmax_run [7, 3, 9, 1, 5, 8, 2, 6] true measured = MinMaxResult.ok r →
        r.target_value = 1 ∧ ∀ i, i ∈ r.target_indices ↔ i = 3 := by
  have hlen : ¬(data.length = 0) := by simpa [List.length_eq_zero] using hne
  have hcap : ¬(10 < Nat.log2 (2 ^ Nat.clog 2 data.length)) := by
    rw [Nat.log2_two_pow]
    omega
  refine ⟨?_, ?_, ?_, Nat.le_pow_clog (by norm_num) _,
    fun j hj => (Nat.le_pow_iff_clog_le (by norm_num)).mp hj,
    minmax_run_ok_props data find_min measured hne hsz, ?_⟩
  · simp only [minmax_run]
    rw [if_neg hlen, if_neg hcap]
    split <;> simp
  · simp only [minmax_run]
    rw [if_neg hlen, if_neg hcap]
    split <;> simp
  · cases find_min <;> simp [minmax_padded]
  · intro r hr
    obtain ⟨hmem, hmin, -, hidx, -, -⟩ :=
      minmax_run_ok_props [7, 3, 9, 1, 5, 8, 2, 6] true measured
        (List.cons_ne_nil 7 [3, 9, 1, 5, 8, 2, 6]) clog_two_eight_le_ten r hr
    have hub := hmin rfl
    have h1mem : (1 : ℚ) ∈ ([7, 3, 9, 1, 5, 8, 2, 6] : List ℚ) := by norm_num
    have h1le : ∀ x ∈ ([7, 3, 9, 1, 5, 8, 2, 6] : List ℚ), (1 : ℚ) ≤ x := by
      intro x hx
      simp only [List.mem_cons, List.not_mem_nil, or_false] at hx
      rcases hx with rfl | rfl | rfl | rfl | rfl | rfl | rfl | rfl <;> norm_num
    have htv : r.target_value = 1 := le_antisymm (hub 1 h1mem) (h1le _ hmem)
    refine ⟨htv, ?_⟩
    intro i
    rw [hidx i, htv]
    constructor
    · rintro ⟨hi, hgd⟩
      have hi' : i < 8 := hi
      interval_cases i <;> norm_num at hgd ⊢
    · rintro rfl
      refine ⟨by norm_num, by norm_num⟩

theorem C6_witness :
    minmax_run [7, 3, 9, 1, 5, 8, 2, 6] true 3 ≠ MinMaxResult.errEmpty :=
  (C6_minmax_extremum [7, 3, 9, 1, 5, 8, 2, 6] true 3
    (List.cons_ne_nil 7 [3, 9, 1, 5, 8, 2, 6]) clog_two_eight_le_ten).1

end Spec2Proof
